import Mathlib

/-!
Verification of the persistence/record core of `youtube_manager.py`.

The program keeps a collection of "video" records as Python dicts parsed
from a JSON file, and offers CRUD/search/sort operations on the in-memory
list.  We embed the JSON value universe as an inductive type `Json`
(JSON numbers are restricted to integers; the repository only ever writes
integer ids and string fields, and no claim involves floating point).
Python dicts are embedded as association lists with unique keys in
insertion order; `json.load`/`json.dump` from the standard library are
modelled as a faithful value-level codec: the file system maps a path to
either a syntactically valid JSON document (carried as its parsed value)
or syntactically invalid bytes (carried as a raw string).

Interactive functions (`delete_video`, `update_video`, `sort_videos`)
are embedded as pure functions of the collection and of the strings the
operator would type at each prompt, returning the new collection together
with a flag recording whether `save_data_atomic` was invoked.
-/

/-- JSON values as produced by `json.load` (numbers restricted to integers). -/
inductive Json where
  | null : Json
  | bool (b : Bool) : Json
  | int (n : Int) : Json
  | str (s : String) : Json
  | arr (elems : List Json) : Json
  | obj (fields : List (String × Json)) : Json

/-- Contents of a file on disk: either bytes that parse as JSON (carried as
the parsed value, since `json.dump`/`json.load` form a faithful codec) or
bytes that do not parse (carried raw). -/
inductive FileContent where
  | valid (j : Json) : FileContent
  | invalid (raw : String) : FileContent

/-- The file system: a map from path to optional file content. -/
def FS : Type := String → Option FileContent

/-- Write (or delete, with `none`) the file at path `p`. -/
def fsSet (fs : FS) (p : String) (c : Option FileContent) : FS :=
  fun q => if q = p then c else fs q

/-- Characters stripped by Python `str.strip()` (ASCII whitespace). -/
def isPySpace (c : Char) : Bool :=
  c = ' ' || c = '\t' || c = '\n' || c = '\r' || c = '\x0b' || c = '\x0c'

/-- Python `str.strip()`: drop leading and trailing whitespace. -/
def pyStrip (s : String) : String :=
  ⟨((s.data.dropWhile isPySpace).reverse.dropWhile isPySpace).reverse⟩

/-- Python `str.lower()` (restricted to ASCII, which covers all inputs the
claims mention). -/
def pyLower (s : String) : String :=
  ⟨s.data.map Char.toLower⟩

/-- Python `str.isdigit()` (restricted to ASCII digits). -/
def pyIsDigit (s : String) : Bool :=
  s ≠ "" && s.data.all Char.isDigit

/-- Numeric value of a list of ASCII digit characters. -/
def digitsToNat (cs : List Char) : Nat :=
  cs.foldl (fun acc c => acc * 10 + (c.toNat - '0'.toNat)) 0

/-- Python `int(s)` on a string: optional surrounding whitespace, optional
sign, then a non-empty run of digits (underscore separators, accepted by
Python, are not modelled; no data in the repository uses them).
Returns `none` where Python raises `ValueError`. -/
def pyIntOfString (s : String) : Option Int :=
  match (pyStrip s).data with
  | [] => none
  | '+' :: rest =>
      if rest ≠ [] && rest.all Char.isDigit then some (digitsToNat rest) else none
  | '-' :: rest =>
      if rest ≠ [] && rest.all Char.isDigit then some (-(digitsToNat rest : Int)) else none
  | cs =>
      if cs.all Char.isDigit then some (digitsToNat cs) else none

/-- Python `int(x)` on a JSON value: ints are returned as-is, bools coerce
(`int(True) = 1`), strings are parsed; `None`, lists and dicts raise
`TypeError`, modelled as `none`. -/
def pyInt : Json → Option Int
  | .int n => some n
  | .bool b => some (if b then 1 else 0)
  | .str s => pyIntOfString s
  | _ => none

/-- Python `d.get(k)` on the field list of a dict (keys are unique in a
Python dict; lookup takes the first occurrence). -/
def fieldGet (fields : List (String × Json)) (k : String) : Option Json :=
  fields.lookup k

/-- Python `v.get(k, d)` on a record: `none`-free lookup with default.
A non-dict record has no `.get`; the call sites that reach this with a
non-dict either cannot (guarded by an id lookup that only succeeds on
dicts) or raise, and the claims never exercise that path. -/
def pyGetD (v : Json) (k : String) (d : Json) : Json :=
  match v with
  | .obj fields => (fieldGet fields k).getD d
  | _ => d

/-- Python `dict.update` for a single key: replace the value in place if the
key is present (insertion order preserved), else append the new pair. -/
def setField (fields : List (String × Json)) (k : String) (v : Json) :
    List (String × Json) :=
  match fields with
  | [] => [(k, v)]
  | (k', v') :: rest =>
      if k' = k then (k', v) :: rest else (k', v') :: setField rest k v

/-- `[t.strip() for t in s.split(",") if t.strip()]`: comma-separated tags
parsed into trimmed non-empty tokens. -/
def parseTags (s : String) : List String :=
  ((s.splitOn ",").map pyStrip).filter (fun t => t ≠ "")

/-! ## Record Store (`load_data`, `save_data_atomic`) -/

/--
`load_data(file_path)`.  Returns the loaded collection and the (possibly
changed) file system.  Branches, following the source:
* path missing → `([], fs)`;
* valid JSON that is a list → its elements, fs unchanged;
* valid JSON that is not a list → `([], fs)` (warning logged);
* invalid JSON → `[]`, and the file is quarantined by
  `os.replace(file_path, file_path + ".corrupt")`.  `backupOk` models
  whether that `os.replace` call itself succeeds; when it fails the
  exception is caught and logged and the file system is unchanged.
-/
def load_data (file_path : String) (backupOk : Bool) (fs : FS) :
    List Json × FS :=
  match fs file_path with
  | none => ([], fs)
  | some (.valid j) =>
      match j with
      | .arr xs => (xs, fs)
      | _ => ([], fs)
  | some (.invalid raw) =>
      if backupOk then
        ([], fsSet (fsSet fs (file_path ++ ".corrupt") (some (.invalid raw))) file_path none)
      else
        ([], fs)

/-- How a `save_data_atomic` run terminates: clean success, a failure while
creating/writing the temporary file (leaving whatever partial content
`junk` the crashed write produced, or no file at all), or a failure of the
final `os.replace`, which leaves the fully written temporary file orphaned. -/
inductive SaveOutcome where
  | success : SaveOutcome
  | failWrite (junk : Option FileContent) : SaveOutcome
  | failRename : SaveOutcome

/--
`save_data_atomic(videos, file_path)`.  The collection is serialized to a
fresh temporary file `tmp` created by `tempfile.NamedTemporaryFile` in the
target's directory (so `tmp ≠ file_path`), then `os.replace(tmp, file_path)`
renames it over the target.  Any exception is caught and logged; the
function never raises and never modifies `videos`.
-/
def save_data_atomic (videos : List Json) (file_path tmp : String)
    (outcome : SaveOutcome) (fs : FS) : FS :=
  match outcome with
  | .success =>
      let written := fsSet fs tmp (some (.valid (.arr videos)))
      fsSet (fsSet written file_path (written tmp)) tmp none
  | .failWrite junk => fsSet fs tmp junk
  | .failRename => fsSet fs tmp (some (.valid (.arr videos)))

/-! ## Identifier Allocator and Lookup -/

/-- `int(v.get("id", 0))` for one record: the value the generator inside
`next_id` produces, `none` where it raises (non-dict record, whose `.get`
raises `AttributeError`, or an id value `int()` cannot coerce). -/
def idCoerced : Json → Option Int
  | .obj fields => pyInt ((fieldGet fields "id").getD (.int 0))
  | _ => none

/-- The generator `(int(v.get("id", 0)) for v in videos)` as consumed by
`max`: all the coerced ids, or `none` when some element raises. -/
def coerceAll : List Json → Option (List Int)
  | [] => some []
  | v :: rest =>
      match idCoerced v, coerceAll rest with
      | some i, some is => some (i :: is)
      | _, _ => none

/--
`next_id(videos)`: 1 on an empty collection, otherwise
`max(int(v.get("id", 0)) for v in videos) + 1`; if the generator raises
(`coerceAll` returns `none`), the `except` branch returns
`len(videos) + 1`.  The unreachable `some []` case mirrors `max`'s
`default=0`.
-/
def next_id (videos : List Json) : Int :=
  match videos with
  | [] => 1
  | _ :: _ =>
      match coerceAll videos with
      | some [] => 1
      | some (i :: is) => is.foldl max i + 1
      | none => (videos.length : Int) + 1

/-- `int(v.get("id"))` for one record: `none` where the expression raises
(non-dict, missing id — `.get` returns `None` and `int(None)` raises — or
uncoercible id). -/
def idGet : Json → Option Int
  | .obj fields => (fieldGet fields "id").bind pyInt
  | _ => none

/-- `find_index_by_id(videos, video_id)`: index of the first record whose
id coerces to `video_id`; records where the coercion raises are skipped. -/
def find_index_by_id (videos : List Json) (video_id : Int) : Option Nat :=
  match videos with
  | [] => none
  | v :: rest =>
      if idGet v = some video_id then some 0
      else (find_index_by_id rest video_id).map (· + 1)

/-! ## Record Operations (`delete_video`, `update_video`, `sort_videos`)

Each is embedded as a pure function of the collection and of the strings
typed at the prompts, returning the new collection and whether
`save_data_atomic` was invoked (the save itself is `save_data_atomic`
above, composed by the caller). -/

/--
`delete_video(videos)` with `idRaw` typed at the id prompt and `confirm`
at the confirmation prompt.  Empty collection, blank id, non-numeric id or
unknown id abort without mutation; deletion happens only when
`confirm.strip().lower() == "yes"`, via `videos.pop(idx)` followed by a save.
-/
def delete_video (videos : List Json) (idRaw confirm : String) :
    List Json × Bool :=
  match videos with
  | [] => ([], false)
  | _ :: _ =>
      let raw := pyStrip idRaw
      if raw = "" then (videos, false)
      else if ¬ pyIsDigit raw then (videos, false)
      else
        match find_index_by_id videos (digitsToNat raw.data : Int) with
        | none => (videos, false)
        | some idx =>
            if pyLower (pyStrip confirm) = "yes" then
              (videos.eraseIdx idx, true)
            else (videos, false)

/-- The record produced by `video.update({"name": …, "time": …,
"description": …, "tags": …})` inside `update_video`: each of the four
keys is set (in the dict-literal order), existing keys in place, missing
keys appended. -/
def applyUpdate (fields : List (String × Json))
    (newName newTime newDesc newTags : Json) : List (String × Json) :=
  setField (setField (setField (setField fields "name" newName)
    "time" newTime) "description" newDesc) "tags" newTags

/--
`update_video(videos)` with `idRaw` typed at the id prompt and
`nameIn`, `timeIn`, `descIn`, `tagsIn` at the four field prompts.
Blank input (after stripping) keeps the current value
(`input(...).strip() or video.get(k, "")`); a non-blank tags input
replaces the tag list with the parsed tokens.  The updated record stays
at its index; the source mutates the dict in place via `video.update`.
The record found by `find_index_by_id` is always a dict, so the
`pyGetD` fallback branch is unreachable here.
-/
def update_video (videos : List Json)
    (idRaw nameIn timeIn descIn tagsIn : String) : List Json × Bool :=
  match videos with
  | [] => ([], false)
  | _ :: _ =>
      let raw := pyStrip idRaw
      if raw = "" then (videos, false)
      else if ¬ pyIsDigit raw then (videos, false)
      else
        match find_index_by_id videos (digitsToNat raw.data : Int) with
        | none => (videos, false)
        | some idx =>
            let video := videos.getD idx (.obj [])
            let newName :=
              let s := pyStrip nameIn
              if s ≠ "" then Json.str s else pyGetD video "name" (.str "")
            let newTime :=
              let s := pyStrip timeIn
              if s ≠ "" then Json.str s else pyGetD video "time" (.str "")
            let newDesc :=
              let s := pyStrip descIn
              if s ≠ "" then Json.str s else pyGetD video "description" (.str "")
            let newTags :=
              let s := pyStrip tagsIn
              if s ≠ "" then Json.arr ((parseTags s).map .str)
              else pyGetD video "tags" (.arr [])
            match video with
            | .obj fields =>
                (videos.set idx (.obj (applyUpdate fields newName newTime newDesc newTags)), true)
            | _ => (videos, false)

/-- Python `<` between two sort-key values, defined on the comparable
pairs (two ints, or two strings compared lexicographically by code
point); on an int/str mix Python raises `TypeError`, so the sort theorems
carry a comparability hypothesis and this total function returns `false`
there. -/
def pyLtB : Json → Json → Bool
  | .int a, .int b => decide (a < b)
  | .str a, .str b => decide (a < b)
  | _, _ => false

/-- `v.get(key, "")`: the sort key of a record. -/
def keyOf (key : String) (v : Json) : Json :=
  pyGetD v key (.str "")

/-- The boolean order `videos.sort` sorts by: ascending (`not (key b < key
a)`) or, with `reverse=True`, descending (`not (key a < key b)`); equal
keys compare `true` both ways, so a stable sort keeps their input order,
matching CPython's stable `list.sort(reverse=...)`. -/
def sortLe (key : String) (reverse : Bool) (u v : Json) : Bool :=
  if reverse then !(pyLtB (keyOf key u) (keyOf key v))
  else !(pyLtB (keyOf key v) (keyOf key u))

/-- The effective sort key: the stripped key input, defaulting to `"name"`
when blank. -/
def effKey (keyIn : String) : String :=
  if pyStrip keyIn = "" then "name" else pyStrip keyIn

/--
`sort_videos(videos)` with `keyIn` typed at the key prompt and `revIn` at
the reverse prompt.  Blank key defaults to `"name"`; a key outside
`{name, time, id}` aborts without mutation; `reverse` is enabled exactly
when the stripped, lowercased input is `"y"`.  `videos.sort` (Timsort, a
stable sort) is modelled by `List.mergeSort`, which is proved stable.
-/
def sort_videos (videos : List Json) (keyIn revIn : String) :
    List Json × Bool :=
  match videos with
  | [] => ([], false)
  | _ :: _ =>
      let key := effKey keyIn
      if key ≠ "name" ∧ key ≠ "time" ∧ key ≠ "id" then (videos, false)
      else
        let reverse := pyLower (pyStrip revIn) = "y"
        (videos.mergeSort (sortLe key reverse), true)

/-! ## Well-typed records (the data model of the spec) -/

/-- A field conforming to the spec's record schema: integer `id`, string
`name`/`time`/`description`, list-of-strings `tags`. -/
def wellTypedField : String × Json → Bool
  | ("id", .int _) => true
  | ("name", .str _) => true
  | ("time", .str _) => true
  | ("description", .str _) => true
  | ("tags", .arr ts) => ts.all fun t => match t with | .str _ => true | _ => false
  | _ => false

/-- A record all of whose fields are well typed. -/
def wellTypedRecord : Json → Bool
  | .obj fields => fields.all wellTypedField
  | _ => false

/-- A collection of well-typed records. -/
def wellTypedCollection (videos : List Json) : Bool :=
  videos.all wellTypedRecord

/-! ## Theorems: Record Store -/

/-- The quarantine path is always a different file from the data file. -/
theorem corrupt_path_ne (p : String) : p ++ ".corrupt" ≠ p := by
  intro h
  have hl := congrArg String.length h
  rw [String.length_append] at hl
  have h8 : String.length ".corrupt" = 8 := rfl
  rw [h8] at hl
  omega

/-- A successful save leaves the serialized collection at the target path. -/
theorem save_success_at_path (C : List Json) (p tmp : String) (fs : FS)
    (hTmp : tmp ≠ p) :
    save_data_atomic C p tmp .success fs p = some (.valid (.arr C)) := by
  simp [save_data_atomic, fsSet, Ne.symm hTmp]

/-- C1: for every collection `C` of well-typed records, `save(C, p)`
followed by `load(p)` yields a collection equal to `C`. -/
theorem save_load_round_trip (C : List Json) (p tmp : String) (fs : FS)
    (hTmp : tmp ≠ p) (_hWT : wellTypedCollection C = true) :
    (load_data p true (save_data_atomic C p tmp .success fs)).1 = C := by
  have hfs := save_success_at_path C p tmp fs hTmp
  simp [load_data, hfs]

/-- Witness for C1 at a concrete well-typed collection. -/
theorem save_load_round_trip_check :
    ("tmp_a1" ≠ "videos.json") ∧
    wellTypedCollection [Json.obj [("id", Json.int 1), ("name", Json.str "A"),
      ("time", Json.str "1:00"), ("description", Json.str ""),
      ("tags", Json.arr [Json.str "x"])]] = true ∧
    (load_data "videos.json" true (save_data_atomic
      [Json.obj [("id", Json.int 1), ("name", Json.str "A"),
        ("time", Json.str "1:00"), ("description", Json.str ""),
        ("tags", Json.arr [Json.str "x"])]]
      "videos.json" "tmp_a1" .success (fun _ => none))).1
      = [Json.obj [("id", Json.int 1), ("name", Json.str "A"),
        ("time", Json.str "1:00"), ("description", Json.str ""),
        ("tags", Json.arr [Json.str "x"])]] :=
  ⟨by decide, rfl, save_load_round_trip _ _ _ _ (by decide) rfl⟩

/-- C2: loading a file whose bytes do not parse returns the empty
collection; when the `os.replace` backup succeeds, the original bytes sit
at `path + ".corrupt"` afterwards (overwriting any prior backup — the
conclusion holds whatever `fs` previously stored there), and when the
backup itself fails the load still returns the empty collection (and the
file system is untouched). -/
theorem load_corrupt_recovery (p raw : String) (fs : FS)
    (h : fs p = some (.invalid raw)) :
    (load_data p true fs).1 = [] ∧
    (load_data p true fs).2 (p ++ ".corrupt") = some (.invalid raw) ∧
    (load_data p false fs).1 = [] ∧
    (load_data p false fs).2 = fs := by
  refine ⟨?_, ?_, ?_, ?_⟩ <;>
    simp [load_data, h, fsSet, corrupt_path_ne p]

/-- Witness for C2 on a concrete corrupted file system. -/
theorem load_corrupt_recovery_check :
    ((fun q => if q = "videos.json" then some (FileContent.invalid "oops") else none) :
        FS) "videos.json" = some (.invalid "oops") ∧
    (load_data "videos.json" true
      (fun q => if q = "videos.json" then some (FileContent.invalid "oops") else none)).1 = [] ∧
    (load_data "videos.json" true
      (fun q => if q = "videos.json" then some (FileContent.invalid "oops") else none)).2
      ("videos.json" ++ ".corrupt") = some (.invalid "oops") :=
  ⟨rfl, (load_corrupt_recovery "videos.json" "oops" _ rfl).1,
    (load_corrupt_recovery "videos.json" "oops" _ rfl).2.1⟩

/-- C9: `save_data_atomic` writes the whole serialized collection to a
temporary file distinct from the target and renames it over the target;
on success the target holds the new serialization, on any failure
(during the temporary-file write or during the rename) the target's
previous content is untouched, and no other path except the temporary
file is ever touched.  The in-memory collection is never modified (the
embedding is a pure function of `videos`) and no failure escapes (the
function is total). -/
theorem save_atomic_failure_safety (videos : List Json) (p tmp : String)
    (fs : FS) (hTmp : tmp ≠ p) :
    (save_data_atomic videos p tmp .success fs p = some (.valid (.arr videos))) ∧
    (∀ junk, save_data_atomic videos p tmp (.failWrite junk) fs p = fs p) ∧
    (save_data_atomic videos p tmp .failRename fs p = fs p) ∧
    (∀ q, q ≠ tmp → q ≠ p → ∀ o, save_data_atomic videos p tmp o fs q = fs q) := by
  refine ⟨save_success_at_path videos p tmp fs hTmp, ?_, ?_, ?_⟩
  · intro junk
    simp [save_data_atomic, fsSet, Ne.symm hTmp]
  · simp [save_data_atomic, fsSet, Ne.symm hTmp]
  · intro q hqt hqp o
    cases o <;> simp [save_data_atomic, fsSet, hqt, hqp]

/-- Witness for C9 at a concrete save whose rename fails. -/
theorem save_atomic_failure_safety_check :
    ("tmp_b2" ≠ "videos.json") ∧
    save_data_atomic [Json.obj [("id", Json.int 7)]] "videos.json" "tmp_b2"
      .failRename (fun _ => some (.valid (.arr []))) "videos.json"
      = some (.valid (.arr [])) :=
  ⟨by decide,
    (save_atomic_failure_safety [Json.obj [("id", Json.int 7)]] "videos.json"
      "tmp_b2" (fun _ => some (.valid (.arr []))) (by decide)).2.2.1⟩

/-! ## Theorems: Identifier Allocator -/

/-- `foldl max` over a list starting at `i` lands on one of `i :: is`. -/
theorem foldlMax_mem : ∀ (is : List Int) (i : Int), is.foldl max i ∈ i :: is
  | [], i => by simp
  | j :: t, i => by
    have ih := foldlMax_mem t (max i j)
    simp only [List.foldl_cons]
    rcases List.mem_cons.mp ih with h | h
    · rcases max_choice i j with hm | hm
      · rw [h, hm]; exact List.mem_cons_self _ _
      · rw [h, hm]; exact List.mem_cons_of_mem _ (List.mem_cons_self _ _)
    · exact List.mem_cons_of_mem _ (List.mem_cons_of_mem _ h)

/-- `foldl max` over a list starting at `i` bounds every element of `i :: is`. -/
theorem le_foldlMax : ∀ (is : List Int) (i x : Int), x ∈ i :: is → x ≤ is.foldl max i
  | [], i, x, h => by
    simp only [List.mem_singleton] at h
    simp [h]
  | j :: t, i, x, h => by
    simp only [List.foldl_cons]
    rcases List.mem_cons.mp h with rfl | h' 
    · exact le_trans (le_max_left x j)
        (le_foldlMax t (max x j) _ (List.mem_cons_self _ _))
    · rcases List.mem_cons.mp h' with rfl | h''
      · exact le_trans (le_max_right i x)
          (le_foldlMax t (max i x) _ (List.mem_cons_self _ _))
      · exact le_foldlMax t (max i j) x (List.mem_cons_of_mem _ h'')

/-- If every record's coercion succeeds, the whole generator succeeds. -/
theorem coerceAll_isSome : ∀ (videos : List Json),
    (∀ v ∈ videos, (idCoerced v).isSome = true) →
    ∃ ids, coerceAll videos = some ids
  | [], _ => ⟨[], rfl⟩
  | v :: rest, h => by
    have hv := h v (List.mem_cons_self _ _)
    obtain ⟨i, hi⟩ := Option.isSome_iff_exists.mp hv
    obtain ⟨is, his⟩ := coerceAll_isSome rest
      (fun u hu => h u (List.mem_cons_of_mem _ hu))
    exact ⟨i :: is, by simp [coerceAll, hi, his]⟩

/-- If some record's coercion raises, the whole generator raises. -/
theorem coerceAll_none : ∀ (videos : List Json),
    (∃ v ∈ videos, idCoerced v = none) → coerceAll videos = none
  | v :: rest, h => by
    obtain ⟨u, hu, hnone⟩ := h
    rcases List.mem_cons.mp hu with rfl | hu'
    · simp [coerceAll, hnone]
    · have := coerceAll_none rest ⟨u, hu', hnone⟩
      cases hv : idCoerced v <;> simp [coerceAll, hv, this]

/-- Every value the generator produced comes from some record. -/
theorem mem_coerceAll : ∀ (videos : List Json) (ids : List Int) (m : Int),
    coerceAll videos = some ids → m ∈ ids → ∃ v ∈ videos, idCoerced v = some m
  | [], ids, m, h, hm => by
    simp only [coerceAll, Option.some.injEq] at h
    subst h
    cases hm
  | v :: rest, ids, m, h, hm => by
    simp only [coerceAll] at h
    cases hv : idCoerced v with
    | none => rw [hv] at h; cases h
    | some i =>
      rw [hv] at h
      cases hrest : coerceAll rest with
      | none => rw [hrest] at h; cases h
      | some is =>
        rw [hrest] at h
        cases h
        rcases List.mem_cons.mp hm with rfl | hm'
        · exact ⟨v, List.mem_cons_self _ _, hv⟩
        · obtain ⟨u, hu, hu'⟩ := mem_coerceAll rest is m hrest hm'
          exact ⟨u, List.mem_cons_of_mem _ hu, hu'⟩

/-- Every record's coerced id appears among the generator's values. -/
theorem coerceAll_mem : ∀ (videos : List Json) (ids : List Int) (v : Json) (i : Int),
    coerceAll videos = some ids → v ∈ videos → idCoerced v = some i → i ∈ ids
  | [], _, v, i, _, hv, _ => by cases hv
  | w :: rest, ids, v, i, h, hv, hi => by
    simp only [coerceAll] at h
    cases hw : idCoerced w with
    | none => rw [hw] at h; cases h
    | some j =>
      rw [hw] at h
      cases hrest : coerceAll rest with
      | none => rw [hrest] at h; cases h
      | some is =>
        rw [hrest] at h
        cases h
        rcases List.mem_cons.mp hv with rfl | hv'
        · rw [hi] at hw
          cases hw
          exact List.mem_cons_self _ _
        · exact List.mem_cons_of_mem _ (coerceAll_mem rest is v i hrest hv' hi)

/-- `next_id` on a non-empty, fully coercible collection is one more than
a maximum of the coerced ids. -/
theorem next_id_of_coerceAll (videos : List Json) (ids : List Int)
    (hne : videos ≠ []) (h : coerceAll videos = some ids) :
    ∃ m, m ∈ ids ∧ (∀ x ∈ ids, x ≤ m) ∧ next_id videos = m + 1 := by
  obtain ⟨v, rest, rfl⟩ := List.exists_cons_of_ne_nil hne
  simp only [coerceAll] at h
  cases hv : idCoerced v with
  | none => rw [hv] at h; cases h
  | some i =>
    rw [hv] at h
    cases hrest : coerceAll rest with
    | none => rw [hrest] at h; cases h
    | some is =>
      rw [hrest] at h
      cases h
      refine ⟨is.foldl max i, foldlMax_mem is i, le_foldlMax is i, ?_⟩
      simp only [next_id, coerceAll, hv, hrest]

/-- `next_id` falls back to `len(videos) + 1` when the generator raises. -/
theorem next_id_of_fallback (videos : List Json)
    (h : coerceAll videos = none) :
    next_id videos = (videos.length : Int) + 1 := by
  cases videos with
  | nil => cases h
  | cons v rest => simp only [next_id, h]

/-- A record with a present, coercible id has that same value as its
defaulted coercion. -/
theorem idGet_imp_idCoerced (v : Json) (i : Int)
    (h : idGet v = some i) : idCoerced v = some i := by
  cases v with
  | obj fields =>
      simp only [idGet] at h
      obtain ⟨j, hj, hji⟩ := Option.bind_eq_some.mp h
      simp [idCoerced, hj, hji]
  | null => cases h
  | bool b => cases h
  | int n => cases h
  | str s => cases h
  | arr l => cases h

/-- C3: `next_id` returns 1 on an empty collection; on a non-empty
collection whose every record has an integer-interpretable id it returns
one greater than the maximum of the coerced ids; and when some record's
id cannot be interpreted it returns `len(videos) + 1` instead of failing. -/
theorem next_id_spec (videos : List Json) :
    (videos = [] → next_id videos = 1) ∧
    (videos ≠ [] → ∀ ids, coerceAll videos = some ids →
      ∃ m, m ∈ ids ∧ (∀ x ∈ ids, x ≤ m) ∧ next_id videos = m + 1) ∧
    ((∃ v ∈ videos, idCoerced v = none) →
      next_id videos = (videos.length : Int) + 1) := by
  refine ⟨fun h => by rw [h]; rfl,
    fun hne ids h => next_id_of_coerceAll videos ids hne h,
    fun h => next_id_of_fallback videos (coerceAll_none videos h)⟩

/-- Witness for C3: empty, all-coercible and fallback collections. -/
theorem next_id_spec_check :
    next_id [] = 1 ∧
    (∃ m, m ∈ [(5 : Int), 2] ∧ (∀ x ∈ [(5 : Int), 2], x ≤ m) ∧
      next_id [Json.obj [("id", Json.int 5)], Json.obj [("id", Json.int 2)]] = m + 1) ∧
    next_id [Json.obj [("id", Json.str "x")]] = 2 :=
  ⟨(next_id_spec []).1 rfl,
   (next_id_spec _).2.1 (by simp) [5, 2] rfl,
   (next_id_spec [Json.obj [("id", Json.str "x")]]).2.2
     ⟨Json.obj [("id", Json.str "x")], List.mem_cons_self _ _, rfl⟩⟩

/-- C10: on a non-empty collection of dicts in which every present id is
coercible, a record lacking the id field contributes `int(0)` via the
`.get("id", 0)` default rather than triggering the fallback: the
generator succeeds, and `next_id` is `m + 1` for `m` the maximum of 0 and
the present ids; when every record lacks the id field, `next_id` is 1. -/
theorem next_id_missing_id_default (videos : List Json)
    (hne : videos ≠ [])
    (hobj : ∀ v ∈ videos, ∃ fields, v = Json.obj fields)
    (hpres : ∀ v ∈ videos, ∀ fields, v = Json.obj fields →
      ∀ j, fieldGet fields "id" = some j → (pyInt j).isSome = true)
    (hmiss : ∃ v ∈ videos, ∃ fields, v = Json.obj fields ∧
      fieldGet fields "id" = none) :
    (∃ ids, coerceAll videos = some ids) ∧
    (∃ m, 0 ≤ m ∧ (m = 0 ∨ ∃ v ∈ videos, idGet v = some m) ∧
      (∀ v ∈ videos, ∀ i, idGet v = some i → i ≤ m) ∧
      next_id videos = m + 1) ∧
    ((∀ v ∈ videos, ∀ fields, v = Json.obj fields →
        fieldGet fields "id" = none) → next_id videos = 1) := by
  have hsome : ∀ v ∈ videos, (idCoerced v).isSome = true := by
    intro v hv
    obtain ⟨fields, rfl⟩ := hobj v hv
    cases hf : fieldGet fields "id" with
    | none => simp [idCoerced, hf, pyInt]
    | some j =>
        have := hpres _ hv fields rfl j hf
        simpa [idCoerced, hf] using this
  obtain ⟨ids, hids⟩ := coerceAll_isSome videos hsome
  obtain ⟨m, hmem, hmax, hnext⟩ := next_id_of_coerceAll videos ids hne hids
  have hzero : (0 : Int) ∈ ids := by
    obtain ⟨v, hv, fields, rfl, hf⟩ := hmiss
    exact coerceAll_mem videos ids _ 0 hids hv (by simp [idCoerced, hf, pyInt])
  refine ⟨⟨ids, hids⟩, ⟨m, hmax 0 hzero, ?_, ?_, hnext⟩, ?_⟩
  · obtain ⟨v, hv, hvc⟩ := mem_coerceAll videos ids m hids hmem
    obtain ⟨fields, rfl⟩ := hobj v hv
    cases hf : fieldGet fields "id" with
    | none =>
        left
        have : idCoerced (Json.obj fields) = some 0 := by simp [idCoerced, hf, pyInt]
        rw [this] at hvc
        cases hvc
        rfl
    | some j =>
        right
        refine ⟨Json.obj fields, hv, ?_⟩
        have : idCoerced (Json.obj fields) = pyInt j := by simp [idCoerced, hf]
        rw [this] at hvc
        simp [idGet, hf, hvc]
  · intro v hv i hi
    exact hmax i (coerceAll_mem videos ids v i hids hv (idGet_imp_idCoerced v i hi))
  · intro hall
    have hm0 : m = 0 := by
      obtain ⟨v, hv, hvc⟩ := mem_coerceAll videos ids m hids hmem
      obtain ⟨fields, rfl⟩ := hobj v hv
      have hf := hall _ hv fields rfl
      have : idCoerced (Json.obj fields) = some 0 := by simp [idCoerced, hf, pyInt]
      rw [this] at hvc
      cases hvc
      rfl
    rw [hnext, hm0, zero_add]

/-- Witness for C10 on a concrete collection where every record lacks ids. -/
theorem next_id_missing_id_default_check :
    (∃ ids, coerceAll [Json.obj [("name", Json.str "A")], Json.obj []] = some ids) ∧
    (∃ m, 0 ≤ m ∧ (m = 0 ∨ ∃ v ∈ [Json.obj [("name", Json.str "A")], Json.obj []],
        idGet v = some m) ∧
      (∀ v ∈ [Json.obj [("name", Json.str "A")], Json.obj []], ∀ i,
        idGet v = some i → i ≤ m) ∧
      next_id [Json.obj [("name", Json.str "A")], Json.obj []] = m + 1) ∧
    ((∀ v ∈ [Json.obj [("name", Json.str "A")], Json.obj []], ∀ fields,
        v = Json.obj fields → fieldGet fields "id" = none) →
      next_id [Json.obj [("name", Json.str "A")], Json.obj []] = 1) :=
  next_id_missing_id_default _ (by simp)
    (by
      intro v hv
      rcases List.mem_cons.mp hv with rfl | hv'
      · exact ⟨_, rfl⟩
      · rcases List.mem_cons.mp hv' with rfl | hv''
        · exact ⟨_, rfl⟩
        · cases hv'')
    (by
      intro v hv fields heq j hj
      rcases List.mem_cons.mp hv with rfl | hv'
      · cases heq; exact Option.noConfusion hj
      · rcases List.mem_cons.mp hv' with rfl | hv''
        · cases heq; exact Option.noConfusion hj
        · cases hv'')
    ⟨Json.obj [("name", Json.str "A")], List.mem_cons_self _ _, _, rfl, rfl⟩

/-- C8 (amended): on a collection in which every record's defaulted id
coercion succeeds, `next_id` is strictly greater than every present
coercible id, so the allocator never revisits one. -/
theorem next_id_gt_all_ids (videos : List Json)
    (h : ∀ v ∈ videos, (idCoerced v).isSome = true) :
    ∀ v ∈ videos, ∀ i, idGet v = some i → i < next_id videos := by
  intro v hv i hi
  have hne : videos ≠ [] := by
    intro hnil
    rw [hnil] at hv
    cases hv
  obtain ⟨ids, hids⟩ := coerceAll_isSome videos h
  obtain ⟨m, _, hmax, hnext⟩ := next_id_of_coerceAll videos ids hne hids
  have : i ≤ m :=
    hmax i (coerceAll_mem videos ids v i hids hv (idGet_imp_idCoerced v i hi))
  rw [hnext]
  omega

/-- Witness for C8 on a concrete fully coercible collection. -/
theorem next_id_gt_all_ids_check :
    (5 : Int) < next_id [Json.obj [("id", Json.int 5)], Json.obj [("id", Json.int 9)]] :=
  next_id_gt_all_ids _ (by decide) (Json.obj [("id", Json.int 5)])
    (List.mem_cons_self _ _) 5 rfl

/-- Counterexample for C8 as stated: with a malformed id alongside a
larger well-formed one, the fallback `len(videos) + 1` is not greater
than the coercible id 5. -/
theorem next_id_not_gt_all_ids :
    (Json.obj [("id", Json.int 5)]) ∈
      [Json.obj [("id", Json.int 5)], Json.obj [("id", Json.str "x")]] ∧
    idGet (Json.obj [("id", Json.int 5)]) = some 5 ∧
    next_id [Json.obj [("id", Json.int 5)], Json.obj [("id", Json.str "x")]] = 3 ∧
    ¬ ((5 : Int) < 3) :=
  ⟨List.mem_cons_self _ _, rfl, rfl, by decide⟩

/-! ## Theorems: Lookup -/

/-- `find_index_by_id` returns `some i` exactly when position `i` holds the
first record whose coerced id matches. -/
theorem find_some_iff : ∀ (videos : List Json) (qid : Int) (i : Nat),
    find_index_by_id videos qid = some i ↔
      ((∃ v, videos[i]? = some v ∧ idGet v = some qid) ∧
       ∀ j, j < i → ∀ u, videos[j]? = some u → idGet u ≠ some qid)
  | [], qid, i => by
    simp [find_index_by_id]
  | v :: rest, qid, i => by
    by_cases h : idGet v = some qid
    · simp only [find_index_by_id, if_pos h]
      cases i with
      | zero =>
        constructor
        · intro _
          exact ⟨⟨v, by simp, h⟩, fun j hj => by omega⟩
        · intro _
          rfl
      | succ n =>
        constructor
        · intro hc
          simp at hc
        · rintro ⟨_, hforall⟩
          exact absurd h (hforall 0 (Nat.succ_pos n) v (by simp))
    · simp only [find_index_by_id, if_neg h]
      cases i with
      | zero =>
        constructor
        · intro hc
          obtain ⟨i', _, hinj⟩ := Option.map_eq_some'.mp hc
          omega
        · rintro ⟨⟨u, hu, hqu⟩, _⟩
          have : v = u := by simpa using hu
          subst this
          exact absurd hqu h
      | succ n =>
        constructor
        · intro hc
          obtain ⟨i', hi', hinj⟩ := Option.map_eq_some'.mp hc
          have hii : i' = n := by omega
          rw [hii] at hi'
          obtain ⟨hex, hforall⟩ := (find_some_iff rest qid n).mp hi'
          refine ⟨by simpa using hex, ?_⟩
          intro j hj u hu
          cases j with
          | zero =>
            have : v = u := by simpa using hu
            subst this
            exact h
          | succ j' =>
            exact hforall j' (by omega) u (by simpa using hu)
        · rintro ⟨hex, hforall⟩
          refine Option.map_eq_some'.mpr ⟨n, ?_, rfl⟩
          apply (find_some_iff rest qid n).mpr
          refine ⟨by simpa using hex, ?_⟩
          intro j hj u hu
          exact hforall (j + 1) (by omega) u (by simpa using hu)

/-- `find_index_by_id` returns `none` exactly when no record's coerced id
matches (records whose coercion raises are skipped, not errors). -/
theorem find_none_iff : ∀ (videos : List Json) (qid : Int),
    find_index_by_id videos qid = none ↔ ∀ v ∈ videos, idGet v ≠ some qid
  | [], qid => by simp [find_index_by_id]
  | v :: rest, qid => by
    by_cases h : idGet v = some qid
    · simp only [find_index_by_id, if_pos h]
      constructor
      · intro hc
        cases hc
      · intro hall
        exact absurd h (hall v (List.mem_cons_self _ _))
    · simp only [find_index_by_id, if_neg h, Option.map_eq_none']
      rw [find_none_iff rest qid]
      constructor
      · intro hrest u hu
        rcases List.mem_cons.mp hu with rfl | hu'
        · exact h
        · exact hrest u hu'
      · intro hall u hu
        exact hall u (List.mem_cons_of_mem _ hu)

/-- C4: `find_index_by_id` returns the position of the first record whose
id coerces to the query id, `none` when no record matches (uncoercible
records are skipped); concretely, on ids `[1, 2]` the query 2 yields
position 1 and the query 3 yields not-found. -/
theorem find_index_spec (videos : List Json) (qid : Int) :
    (∀ i, find_index_by_id videos qid = some i ↔
      ((∃ v, videos[i]? = some v ∧ idGet v = some qid) ∧
       ∀ j, j < i → ∀ u, videos[j]? = some u → idGet u ≠ some qid)) ∧
    (find_index_by_id videos qid = none ↔ ∀ v ∈ videos, idGet v ≠ some qid) ∧
    find_index_by_id [Json.obj [("id", Json.int 1)], Json.obj [("id", Json.int 2)]] 2
      = some 1 ∧
    find_index_by_id [Json.obj [("id", Json.int 1)], Json.obj [("id", Json.int 2)]] 3
      = none :=
  ⟨find_some_iff videos qid, find_none_iff videos qid, rfl, rfl⟩

/-- Witness for C4: both characterizations applied at concrete inputs. -/
theorem find_index_spec_check :
    find_index_by_id [Json.obj [("id", Json.int 7)]] 7 = some 0 ∧
    find_index_by_id [] (0 : Int) = none :=
  ⟨((find_index_spec [Json.obj [("id", Json.int 7)]] 7).1 0).mpr
      ⟨⟨Json.obj [("id", Json.int 7)], rfl, rfl⟩, fun j hj => by omega⟩,
    (find_index_spec [] 0).2.1.mpr (by simp)⟩

/-! ## Theorems: Delete -/

/-- C5: with a non-empty collection and a valid, found target id, delete
removes a record only when the stripped, lowercased confirmation equals
"yes"; any other confirmation leaves the collection unchanged with no
save; on "yes" exactly the targeted record is removed, all others keeping
their order, and a save happens.  Concretely, ids `[1, 2]` with target 1:
"yes" yields `[2]` and "no" leaves `[1, 2]`. -/
theorem delete_video_spec (videos : List Json) (idRaw confirm : String)
    (idx : Nat) (hne : videos ≠ [])
    (hdig : pyIsDigit (pyStrip idRaw) = true)
    (hfind : find_index_by_id videos (digitsToNat (pyStrip idRaw).data : Int)
      = some idx) :
    (pyLower (pyStrip confirm) ≠ "yes" →
      delete_video videos idRaw confirm = (videos, false)) ∧
    (pyLower (pyStrip confirm) = "yes" →
      delete_video videos idRaw confirm
        = (videos.take idx ++ videos.drop (idx + 1), true)) ∧
    delete_video [Json.obj [("id", Json.int 1)], Json.obj [("id", Json.int 2)]]
      "1" "yes" = ([Json.obj [("id", Json.int 2)]], true) ∧
    delete_video [Json.obj [("id", Json.int 1)], Json.obj [("id", Json.int 2)]]
      "1" "no"
      = ([Json.obj [("id", Json.int 1)], Json.obj [("id", Json.int 2)]], false) := by
  obtain ⟨v, rest, rfl⟩ := List.exists_cons_of_ne_nil hne
  have hne' : ¬ (pyStrip idRaw = "") := by
    intro h0
    rw [pyIsDigit, h0] at hdig
    simp at hdig
  have hred : ∀ c : String, delete_video (v :: rest) idRaw c =
      (if pyLower (pyStrip c) = "yes" then ((v :: rest).eraseIdx idx, true)
       else (v :: rest, false)) := by
    intro c
    simp [delete_video, hne', hdig, hfind]
  refine ⟨?_, ?_, rfl, rfl⟩
  · intro hc
    rw [hred confirm, if_neg hc]
  · intro hc
    rw [hred confirm, if_pos hc, List.eraseIdx_eq_take_drop_succ]

/-- Witness for C5: the theorem applied to the collection with ids `[1, 2]`,
target id 1 and both confirmation inputs. -/
theorem delete_video_spec_check :
    delete_video [Json.obj [("id", Json.int 1)], Json.obj [("id", Json.int 2)]]
      "1" "No " = ([Json.obj [("id", Json.int 1)], Json.obj [("id", Json.int 2)]], false) ∧
    delete_video [Json.obj [("id", Json.int 1)], Json.obj [("id", Json.int 2)]]
      "1" " YES "
      = ([Json.obj [("id", Json.int 1)], Json.obj [("id", Json.int 2)]].take 0 ++
         [Json.obj [("id", Json.int 1)], Json.obj [("id", Json.int 2)]].drop 1, true) :=
  ⟨(delete_video_spec [Json.obj [("id", Json.int 1)], Json.obj [("id", Json.int 2)]]
      "1" "No " 0 (by simp) rfl rfl).1 (by decide),
   (delete_video_spec [Json.obj [("id", Json.int 1)], Json.obj [("id", Json.int 2)]]
      "1" " YES " 0 (by simp) rfl rfl).2.1 (by decide)⟩

/-! ## Theorems: Update -/

/-- Setting a key to the value it already holds leaves a dict unchanged. -/
theorem setField_self : ∀ (fields : List (String × Json)) (k : String) (v : Json),
    fieldGet fields k = some v → setField fields k v = fields
  | [], k, v, h => by cases h
  | (k', v') :: rest, k, v, h => by
    by_cases hk : k' = k
    · subst hk
      have hv : v' = v := by
        simpa [fieldGet] using h
      subst hv
      simp [setField]
    · have hbeq : (k == k') = false := by
        simp [hk]
        exact fun hc => hk hc.symm
      rw [setField, if_neg hk]
      rw [setField_self rest k v (by simpa [fieldGet, List.lookup, hbeq] using h)]

/-- After setting a key, looking it up returns the new value. -/
theorem fieldGet_setField : ∀ (fields : List (String × Json)) (k : String) (v : Json),
    fieldGet (setField fields k v) k = some v
  | [], k, v => by simp [setField, fieldGet]
  | (k', v') :: rest, k, v => by
    by_cases hk : k' = k
    · subst hk
      simp [setField, fieldGet]
    · have hbeq : (k == k') = false := by
        simp [hk]
        exact fun hc => hk hc.symm
      rw [setField, if_neg hk]
      simp only [fieldGet, List.lookup, hbeq]
      exact fieldGet_setField rest k v

/-- Setting a key touches no other key. -/
theorem fieldGet_setField_ne : ∀ (fields : List (String × Json)) (k k' : String)
    (v : Json), k' ≠ k → fieldGet (setField fields k v) k' = fieldGet fields k'
  | [], k, k', v, hne => by
    have hbeq : (k' == k) = false := by
      simp [hne]
    simp [setField, fieldGet, List.lookup, hbeq]
  | (k₀, v₀) :: rest, k, k', v, hne => by
    by_cases hk : k₀ = k
    · subst hk
      have hbeq : (k' == k₀) = false := by
        simp [hne]
      simp [setField, fieldGet, List.lookup, hbeq]
    · rw [setField, if_neg hk]
      cases hbeq : k' == k₀ with
      | true => simp [fieldGet, List.lookup, hbeq]
      | false =>
        simp only [fieldGet, List.lookup, hbeq]
        exact fieldGet_setField_ne rest k k' v hne

/-- Writing back the element already at a position leaves the list unchanged. -/
theorem set_getElem?_self : ∀ (l : List α) (i : Nat) (a : α),
    l[i]? = some a → l.set i a = l
  | [], i, a, h => by cases h
  | a' :: l, 0, a, h => by
    have : a' = a := by simpa using h
    subst this
    rfl
  | a' :: l, i + 1, a, h => by
    simp only [List.set]
    rw [set_getElem?_self l i a (by simpa using h)]

/-- Counterexample for C6 as stated: applying an all-blank update to the
spec's own example record, which lacks the description and tags fields,
does not leave the record unchanged — the code adds a "description" key
(empty string) and a "tags" key (empty list) that were absent before, and
Python dict equality distinguishes the two records. -/
theorem update_video_adds_missing_fields :
    update_video
      [Json.obj [("id", Json.int 1), ("name", Json.str "A"), ("time", Json.str "1:00")]]
      "1" "" "" "" ""
      = ([Json.obj [("id", Json.int 1), ("name", Json.str "A"),
          ("time", Json.str "1:00"), ("description", Json.str ""),
          ("tags", Json.arr [])]], true) ∧
    fieldGet [("id", Json.int 1), ("name", Json.str "A"), ("time", Json.str "1:00")]
      "description" = none ∧
    fieldGet [("id", Json.int 1), ("name", Json.str "A"), ("time", Json.str "1:00"),
      ("description", Json.str ""), ("tags", Json.arr [])] "description"
      = some (Json.str "") :=
  ⟨rfl, rfl, rfl⟩

/-- C6 (amended): with a found target record that possesses all four
fields name/time/description/tags, an update whose new-value inputs are
all blank leaves the collection completely unchanged (the record keeps
its values, position and id) and saves; when instead the tags input is
non-blank, the stored record's tag list is fully replaced by the parsed
comma-separated tokens (id untouched) and a save happens.  (As stated the
claim also covered records missing some of the four fields; the
counterexample shows those gain defaulted fields.) -/
theorem update_video_blank_keeps (videos : List Json)
    (idRaw nameIn timeIn descIn tagsIn : String) (idx : Nat)
    (fields : List (String × Json))
    (hne : videos ≠ [])
    (hdig : pyIsDigit (pyStrip idRaw) = true)
    (hfind : find_index_by_id videos (digitsToNat (pyStrip idRaw).data : Int)
      = some idx)
    (hrec : videos[idx]? = some (Json.obj fields))
    (hbn : pyStrip nameIn = "") (hbt : pyStrip timeIn = "")
    (hbd : pyStrip descIn = "") :
    (pyStrip tagsIn = "" →
      (fieldGet fields "name").isSome = true →
      (fieldGet fields "time").isSome = true →
      (fieldGet fields "description").isSome = true →
      (fieldGet fields "tags").isSome = true →
      update_video videos idRaw nameIn timeIn descIn tagsIn = (videos, true)) ∧
    (pyStrip tagsIn ≠ "" →
      ∃ fields', (update_video videos idRaw nameIn timeIn descIn tagsIn).1[idx]?
          = some (Json.obj fields') ∧
        fieldGet fields' "tags"
          = some (Json.arr ((parseTags (pyStrip tagsIn)).map Json.str)) ∧
        fieldGet fields' "id" = fieldGet fields "id" ∧
        (update_video videos idRaw nameIn timeIn descIn tagsIn).2 = true) := by
  obtain ⟨v, rest, rfl⟩ := List.exists_cons_of_ne_nil hne
  have hne' : ¬ (pyStrip idRaw = "") := by
    intro h0
    rw [pyIsDigit, h0] at hdig
    simp at hdig
  have hlt : idx < (v :: rest).length := by
    by_contra hge
    rw [List.getElem?_eq_none (Nat.le_of_not_lt hge)] at hrec
    cases hrec
  have hvideo : (v :: rest).getD idx (Json.obj []) = Json.obj fields := by
    simp [List.getD_eq_getElem?_getD, hrec]
  have hred : update_video (v :: rest) idRaw nameIn timeIn descIn tagsIn =
      ((v :: rest).set idx (Json.obj (applyUpdate fields
        ((fieldGet fields "name").getD (Json.str ""))
        ((fieldGet fields "time").getD (Json.str ""))
        ((fieldGet fields "description").getD (Json.str ""))
        (if pyStrip tagsIn ≠ "" then
          Json.arr ((parseTags (pyStrip tagsIn)).map Json.str)
         else (fieldGet fields "tags").getD (Json.arr [])))), true) := by
    simp only [update_video, hne', if_false, hdig, hfind, hvideo, hbn, hbt, hbd,
      pyGetD]
    simp
  constructor
  · intro htg hn ht hd hg
    obtain ⟨nv, hnv⟩ := Option.isSome_iff_exists.mp hn
    obtain ⟨tv, htv⟩ := Option.isSome_iff_exists.mp ht
    obtain ⟨dv, hdv⟩ := Option.isSome_iff_exists.mp hd
    obtain ⟨gv, hgv⟩ := Option.isSome_iff_exists.mp hg
    rw [hred, htg]
    simp only [hnv, htv, hdv, hgv, Option.getD_some, ne_eq, not_true_eq_false,
      if_false, ite_false]
    rw [applyUpdate, setField_self _ _ _ hnv, setField_self _ _ _ htv,
      setField_self _ _ _ hdv, setField_self _ _ _ hgv,
      set_getElem?_self _ _ _ hrec]
  · intro htg
    rw [hred, if_pos htg]
    refine ⟨applyUpdate fields
        ((fieldGet fields "name").getD (Json.str ""))
        ((fieldGet fields "time").getD (Json.str ""))
        ((fieldGet fields "description").getD (Json.str ""))
        (Json.arr ((parseTags (pyStrip tagsIn)).map Json.str)), ?_, ?_, ?_, rfl⟩
    · simp [List.getElem?_set_self hlt]
    · rw [applyUpdate]
      exact fieldGet_setField _ _ _
    · rw [applyUpdate]
      rw [fieldGet_setField_ne _ _ _ _ (by decide)]
      rw [fieldGet_setField_ne _ _ _ _ (by decide)]
      rw [fieldGet_setField_ne _ _ _ _ (by decide)]
      rw [fieldGet_setField_ne _ _ _ _ (by decide)]

/-- Witness for C6: a complete record is untouched by an all-blank update,
and a non-blank tags input fully replaces its tag list. -/
theorem update_video_blank_keeps_check :
    update_video [Json.obj [("id", Json.int 1), ("name", Json.str "A"),
        ("time", Json.str "1:00"), ("description", Json.str "d"),
        ("tags", Json.arr [Json.str "t"])]] "1" "" "" "" ""
      = ([Json.obj [("id", Json.int 1), ("name", Json.str "A"),
          ("time", Json.str "1:00"), ("description", Json.str "d"),
          ("tags", Json.arr [Json.str "t"])]], true) ∧
    (∃ fields', (update_video [Json.obj [("id", Json.int 1), ("name", Json.str "A"),
        ("time", Json.str "1:00"), ("description", Json.str "d"),
        ("tags", Json.arr [Json.str "t"])]] "1" "" "" "" "x, y").1[0]?
        = some (Json.obj fields') ∧
      fieldGet fields' "tags"
        = some (Json.arr ((parseTags (pyStrip "x, y")).map Json.str)) ∧
      fieldGet fields' "id" = fieldGet [("id", Json.int 1), ("name", Json.str "A"),
        ("time", Json.str "1:00"), ("description", Json.str "d"),
        ("tags", Json.arr [Json.str "t"])] "id" ∧
      (update_video [Json.obj [("id", Json.int 1), ("name", Json.str "A"),
        ("time", Json.str "1:00"), ("description", Json.str "d"),
        ("tags", Json.arr [Json.str "t"])]] "1" "" "" "" "x, y").2 = true) :=
  ⟨(update_video_blank_keeps [Json.obj [("id", Json.int 1), ("name", Json.str "A"),
        ("time", Json.str "1:00"), ("description", Json.str "d"),
        ("tags", Json.arr [Json.str "t"])]] "1" "" "" "" "" 0
      [("id", Json.int 1), ("name", Json.str "A"), ("time", Json.str "1:00"),
        ("description", Json.str "d"), ("tags", Json.arr [Json.str "t"])]
      (by simp) rfl rfl rfl rfl rfl rfl).1 rfl rfl rfl rfl rfl,
   (update_video_blank_keeps [Json.obj [("id", Json.int 1), ("name", Json.str "A"),
        ("time", Json.str "1:00"), ("description", Json.str "d"),
        ("tags", Json.arr [Json.str "t"])]] "1" "" "" "" "x, y" 0
      [("id", Json.int 1), ("name", Json.str "A"), ("time", Json.str "1:00"),
        ("description", Json.str "d"), ("tags", Json.arr [Json.str "t"])]
      (by simp) rfl rfl rfl rfl rfl rfl).2 (by decide)⟩

/-! ## Theorems: Sort

`videos.sort` only ever compares elements of the list being sorted, so the
behaviour of the comparison outside the collection is irrelevant; the
following congruence lemmas let the sortedness and stability facts of
`List.mergeSort`, which require a globally transitive and total order, be
applied under a comparability hypothesis that only concerns the
collection's own key values. -/

/-- `merge` only compares elements of its two inputs. -/
theorem merge_congr {α : Type} (le le' : α → α → Bool) :
    ∀ (l₁ l₂ : List α), (∀ a ∈ l₁, ∀ b ∈ l₂, le a b = le' a b) →
      l₁.merge l₂ le = l₁.merge l₂ le'
  | [], l₂, _ => by simp
  | a :: as, [], _ => by simp
  | a :: as, b :: bs, h => by
    rw [List.cons_merge_cons, List.cons_merge_cons]
    rw [h a (List.mem_cons_self _ _) b (List.mem_cons_self _ _)]
    by_cases hc : le' a b = true
    · rw [if_pos hc, if_pos hc]
      rw [merge_congr le le' as (b :: bs)
        (fun x hx y hy => h x (List.mem_cons_of_mem _ hx) y hy)]
    · rw [if_neg hc, if_neg hc]
      rw [merge_congr le le' (a :: as) bs
        (fun x hx y hy => h x hx y (List.mem_cons_of_mem _ hy))]
termination_by l₁ l₂ _ => l₁.length + l₂.length

/-- `mergeSort` only compares elements of the list being sorted. -/
theorem mergeSort_congr {α : Type} (le le' : α → α → Bool) :
    ∀ (l : List α), (∀ a ∈ l, ∀ b ∈ l, le a b = le' a b) →
      l.mergeSort le = l.mergeSort le'
  | [], _ => by simp
  | [a], _ => by simp
  | a :: b :: xs, h => by
    have hl1 : (List.splitInTwo ⟨a :: b :: xs, rfl⟩).1.1.length < xs.length + 1 + 1 := by
      simp [List.splitInTwo_fst]
      omega
    have hl2 : (List.splitInTwo ⟨a :: b :: xs, rfl⟩).2.1.length < xs.length + 1 + 1 := by
      simp [List.splitInTwo_snd]
      omega
    have hm1 : ∀ x ∈ (List.splitInTwo ⟨a :: b :: xs, rfl⟩).1.1, x ∈ a :: b :: xs := by
      intro x hx
      rw [List.splitInTwo_fst] at hx
      exact List.mem_of_mem_take hx
    have hm2 : ∀ x ∈ (List.splitInTwo ⟨a :: b :: xs, rfl⟩).2.1, x ∈ a :: b :: xs := by
      intro x hx
      rw [List.splitInTwo_snd] at hx
      exact List.mem_of_mem_drop hx
    rw [List.mergeSort, List.mergeSort]
    rw [mergeSort_congr le le' (List.splitInTwo ⟨a :: b :: xs, rfl⟩).1.1
      (fun x hx y hy => h x (hm1 x hx) y (hm1 y hy))]
    rw [mergeSort_congr le le' (List.splitInTwo ⟨a :: b :: xs, rfl⟩).2.1
      (fun x hx y hy => h x (hm2 x hx) y (hm2 y hy))]
    exact merge_congr le le' _ _ (fun x hx y hy =>
      h x (hm1 x (List.mem_mergeSort.mp hx)) y (hm2 y (List.mem_mergeSort.mp hy)))
termination_by l _ => l.length

/-- Two key values Python can compare with `<`: both ints or both strings. -/
def comparableKeys (a b : Json) : Prop :=
  (∃ m n, a = Json.int m ∧ b = Json.int n) ∨
  (∃ s t, a = Json.str s ∧ b = Json.str t)

/-- The integer behind an integer key value (0 elsewhere; used only on
collections whose keys are all ints). -/
def toIntKey (key : String) (v : Json) : Int :=
  match keyOf key v with
  | .int n => n
  | _ => 0

/-- The string behind a string key value ("" elsewhere; used only on
collections whose keys are all strings). -/
def toStrKey (key : String) (v : Json) : String :=
  match keyOf key v with
  | .str s => s
  | _ => ""

/-- A boolean equals the `decide` of any proposition it is equivalent to. -/
theorem eq_decide_of_iff {p : Prop} [Decidable p] {b : Bool}
    (h : b = true ↔ p) : b = decide p := by
  by_cases hp : p
  · rw [h.mpr hp, decide_eq_true hp]
  · have hb : b ≠ true := fun hbt => hp (h.mp hbt)
    rw [decide_eq_false hp]
    exact Bool.eq_false_iff.mpr hb

/-- Sorting behaviour of `mergeSort` under `sortLe` when the key values of
the collection embed into a linear order matching `pyLtB`: the result is a
permutation, it is sorted by the key (ascending or descending following
`rv`), and any equal-key sublist survives in its original relative order. -/
theorem mergeSort_sortLe_spec {β : Type} [LinearOrder β] (videos : List Json)
    (key : String) (rv : Bool) (f : Json → β)
    (hf : ∀ u ∈ videos, ∀ w ∈ videos,
      (pyLtB (keyOf key u) (keyOf key w) = true ↔ f u < f w))
    (hfk : ∀ u w : Json, keyOf key u = keyOf key w → f u = f w) :
    (videos.mergeSort (sortLe key rv)).Perm videos ∧
    (rv = false → (videos.mergeSort (sortLe key rv)).Pairwise
      (fun u w => pyLtB (keyOf key w) (keyOf key u) = false)) ∧
    (rv = true → (videos.mergeSort (sortLe key rv)).Pairwise
      (fun u w => pyLtB (keyOf key u) (keyOf key w) = false)) ∧
    (∀ (c : List Json) (k : Json), c.Sublist videos →
      (∀ u ∈ c, keyOf key u = k) →
      c.Sublist (videos.mergeSort (sortLe key rv))) := by
  have hb : ∀ (x y : β), (!(decide (x < y))) = decide (y ≤ x) := by
    intro x y
    rw [← decide_not]
    exact decide_eq_decide.mpr not_lt
  have hfd : ∀ u ∈ videos, ∀ w ∈ videos,
      pyLtB (keyOf key u) (keyOf key w) = decide (f u < f w) :=
    fun u hu w hw => eq_decide_of_iff (hf u hu w hw)
  cases rv with
  | false =>
    have hagree : ∀ u ∈ videos, ∀ w ∈ videos,
        sortLe key false u w = decide (f u ≤ f w) := by
      intro u hu w hw
      simp only [sortLe, Bool.false_eq_true, if_false]
      rw [hfd w hw u hu, hb]
    have htrans : ∀ a b c : Json, decide (f a ≤ f b) = true →
        decide (f b ≤ f c) = true → decide (f a ≤ f c) = true := by
      intro a b c h1 h2
      simp only [decide_eq_true_eq] at h1 h2 ⊢
      exact le_trans h1 h2
    have htotal : ∀ a b : Json,
        (decide (f a ≤ f b) || decide (f b ≤ f a)) = true := by
      intro a b
      rcases le_total (f a) (f b) with h | h
      · simp [h]
      · simp [h]
    have hcongr : videos.mergeSort (sortLe key false)
        = videos.mergeSort (fun u w => decide (f u ≤ f w)) :=
      mergeSort_congr _ _ videos hagree
    refine ⟨List.mergeSort_perm videos _, ?_, ?_, ?_⟩
    · intro _
      rw [hcongr]
      have hs := List.sorted_mergeSort htrans htotal videos
      apply List.pairwise_iff_forall_sublist.mpr
      intro a b hab
      have ha : a ∈ videos :=
        List.mem_mergeSort.mp (hab.subset (List.mem_cons_self _ _))
      have hbm : b ∈ videos := List.mem_mergeSort.mp (hab.subset (by simp))
      have hle := List.pairwise_iff_forall_sublist.mp hs hab
      rw [hfd b hbm a ha]
      simp only [decide_eq_true_eq] at hle
      exact decide_eq_false (not_lt.mpr hle)
    · intro hcon
      cases hcon
    · intro c k hsub hkeys
      rw [hcongr]
      apply List.sublist_mergeSort htrans htotal ?_ hsub
      apply List.pairwise_of_forall_mem_list
      intro a ha b hbm
      have hfab : f a = f b := hfk a b (by rw [hkeys a ha, hkeys b hbm])
      show decide (f a ≤ f b) = true
      simp [hfab]
  | true =>
    have hagree : ∀ u ∈ videos, ∀ w ∈ videos,
        sortLe key true u w = decide (f w ≤ f u) := by
      intro u hu w hw
      simp only [sortLe, if_true]
      rw [hfd u hu w hw, hb]
    have htrans : ∀ a b c : Json, decide (f b ≤ f a) = true →
        decide (f c ≤ f b) = true → decide (f c ≤ f a) = true := by
      intro a b c h1 h2
      simp only [decide_eq_true_eq] at h1 h2 ⊢
      exact le_trans h2 h1
    have htotal : ∀ a b : Json,
        (decide (f b ≤ f a) || decide (f a ≤ f b)) = true := by
      intro a b
      rcases le_total (f b) (f a) with h | h
      · simp [h]
      · simp [h]
    have hcongr : videos.mergeSort (sortLe key true)
        = videos.mergeSort (fun u w => decide (f w ≤ f u)) :=
      mergeSort_congr _ _ videos hagree
    refine ⟨List.mergeSort_perm videos _, ?_, ?_, ?_⟩
    · intro hcon
      cases hcon
    · intro _
      rw [hcongr]
      have hs := List.sorted_mergeSort htrans htotal videos
      apply List.pairwise_iff_forall_sublist.mpr
      intro a b hab
      have ha : a ∈ videos :=
        List.mem_mergeSort.mp (hab.subset (List.mem_cons_self _ _))
      have hbm : b ∈ videos := List.mem_mergeSort.mp (hab.subset (by simp))
      have hle := List.pairwise_iff_forall_sublist.mp hs hab
      rw [hfd a ha b hbm]
      simp only [decide_eq_true_eq] at hle
      exact decide_eq_false (not_lt.mpr hle)
    · intro c k hsub hkeys
      rw [hcongr]
      apply List.sublist_mergeSort htrans htotal ?_ hsub
      apply List.pairwise_of_forall_mem_list
      intro a ha b hbm
      have hfab : f a = f b := hfk a b (by rw [hkeys a ha, hkeys b hbm])
      show decide (f b ≤ f a) = true
      simp [hfab]

/-- C7: for a non-empty collection, a key input whose stripped value
(defaulting to "name" when blank) is outside `{name, time, id}` is
rejected with the collection unchanged and no save; a valid key, under
the data model's guarantee that the chosen key's values are mutually
comparable, yields a save and a stable sort by that key: the result is a
permutation, ordered ascending unless the reverse input is exactly "y"
(stripped, lowercased) and descending then, and every run of equal-key
records keeps its original relative order. -/
theorem sort_videos_spec (videos : List Json) (keyIn revIn : String)
    (hne : videos ≠ []) :
    (¬ (effKey keyIn = "name" ∨ effKey keyIn = "time" ∨ effKey keyIn = "id") →
      sort_videos videos keyIn revIn = (videos, false)) ∧
    ((effKey keyIn = "name" ∨ effKey keyIn = "time" ∨ effKey keyIn = "id") →
     (∀ u ∈ videos, ∀ w ∈ videos,
        comparableKeys (keyOf (effKey keyIn) u) (keyOf (effKey keyIn) w)) →
     (sort_videos videos keyIn revIn).2 = true ∧
     (sort_videos videos keyIn revIn).1.Perm videos ∧
     (pyLower (pyStrip revIn) ≠ "y" →
       (sort_videos videos keyIn revIn).1.Pairwise
         (fun u w => pyLtB (keyOf (effKey keyIn) w) (keyOf (effKey keyIn) u)
           = false)) ∧
     (pyLower (pyStrip revIn) = "y" →
       (sort_videos videos keyIn revIn).1.Pairwise
         (fun u w => pyLtB (keyOf (effKey keyIn) u) (keyOf (effKey keyIn) w)
           = false)) ∧
     (∀ (c : List Json) (k : Json), c.Sublist videos →
        (∀ u ∈ c, keyOf (effKey keyIn) u = k) →
        c.Sublist (sort_videos videos keyIn revIn).1)) := by
  obtain ⟨v, rest, rfl⟩ := List.exists_cons_of_ne_nil hne
  constructor
  · intro hbad
    have h1 : ¬ (effKey keyIn = "name") := fun h => hbad (Or.inl h)
    have h2 : ¬ (effKey keyIn = "time") := fun h => hbad (Or.inr (Or.inl h))
    have h3 : ¬ (effKey keyIn = "id") := fun h => hbad (Or.inr (Or.inr h))
    simp only [sort_videos]
    rw [if_pos ⟨h1, h2, h3⟩]
  · intro hk hcomp
    have hval : ¬ (effKey keyIn ≠ "name" ∧ effKey keyIn ≠ "time" ∧
        effKey keyIn ≠ "id") := by
      rcases hk with h | h | h
      · exact fun hc => hc.1 h
      · exact fun hc => hc.2.1 h
      · exact fun hc => hc.2.2 h
    have hsort : sort_videos (v :: rest) keyIn revIn
        = ((v :: rest).mergeSort (sortLe (effKey keyIn)
            (decide (pyLower (pyStrip revIn) = "y"))), true) := by
      simp only [sort_videos]
      rw [if_neg hval]
    have hkind : (∀ u ∈ v :: rest, ∃ n, keyOf (effKey keyIn) u = Json.int n) ∨
        (∀ u ∈ v :: rest, ∃ s, keyOf (effKey keyIn) u = Json.str s) := by
      rcases hcomp v (List.mem_cons_self _ _) v (List.mem_cons_self _ _) with
        ⟨m, n, hm, _⟩ | ⟨s, t, hs, _⟩
      · left
        intro u hu
        rcases hcomp u hu v (List.mem_cons_self _ _) with
          ⟨m', n', hm', _⟩ | ⟨s', t', hs', ht'⟩
        · exact ⟨m', hm'⟩
        · rw [hm] at ht'
          cases ht'
      · right
        intro u hu
        rcases hcomp u hu v (List.mem_cons_self _ _) with
          ⟨m', n', hm', hn'⟩ | ⟨s', t', hs', _⟩
        · rw [hs] at hn'
          cases hn'
        · exact ⟨s', hs'⟩
    rcases hkind with hint | hstr
    · have hf : ∀ u ∈ v :: rest, ∀ w ∈ v :: rest,
          (pyLtB (keyOf (effKey keyIn) u) (keyOf (effKey keyIn) w) = true ↔
            toIntKey (effKey keyIn) u < toIntKey (effKey keyIn) w) := by
        intro u hu w hw
        obtain ⟨m, hm⟩ := hint u hu
        obtain ⟨n, hn⟩ := hint w hw
        have h1 : toIntKey (effKey keyIn) u = m := by simp [toIntKey, hm]
        have h2 : toIntKey (effKey keyIn) w = n := by simp [toIntKey, hn]
        rw [hm, hn, h1, h2]
        simp [pyLtB]
      have hfk : ∀ u w : Json,
          keyOf (effKey keyIn) u = keyOf (effKey keyIn) w →
          toIntKey (effKey keyIn) u = toIntKey (effKey keyIn) w := by
        intro u w h
        simp only [toIntKey, h]
      obtain ⟨hperm, hasc, hdesc, hstab⟩ :=
        mergeSort_sortLe_spec (v :: rest) (effKey keyIn)
          (decide (pyLower (pyStrip revIn) = "y")) (toIntKey (effKey keyIn)) hf hfk
      refine ⟨by rw [hsort], by rw [hsort]; exact hperm, ?_, ?_, ?_⟩
      · intro hrev
        rw [hsort]
        exact hasc (decide_eq_false hrev)
      · intro hrev
        rw [hsort]
        exact hdesc (decide_eq_true hrev)
      · intro c k hsub hkeys
        rw [hsort]
        exact hstab c k hsub hkeys
    · have hf : ∀ u ∈ v :: rest, ∀ w ∈ v :: rest,
          (pyLtB (keyOf (effKey keyIn) u) (keyOf (effKey keyIn) w) = true ↔
            toStrKey (effKey keyIn) u < toStrKey (effKey keyIn) w) := by
        intro u hu w hw
        obtain ⟨a, ha⟩ := hstr u hu
        obtain ⟨b, hbm⟩ := hstr w hw
        have h1 : toStrKey (effKey keyIn) u = a := by simp [toStrKey, ha]
        have h2 : toStrKey (effKey keyIn) w = b := by simp [toStrKey, hbm]
        rw [ha, hbm, h1, h2]
        simp [pyLtB]
      have hfk : ∀ u w : Json,
          keyOf (effKey keyIn) u = keyOf (effKey keyIn) w →
          toStrKey (effKey keyIn) u = toStrKey (effKey keyIn) w := by
        intro u w h
        simp only [toStrKey, h]
      obtain ⟨hperm, hasc, hdesc, hstab⟩ :=
        mergeSort_sortLe_spec (v :: rest) (effKey keyIn)
          (decide (pyLower (pyStrip revIn) = "y")) (toStrKey (effKey keyIn)) hf hfk
      refine ⟨by rw [hsort], by rw [hsort]; exact hperm, ?_, ?_, ?_⟩
      · intro hrev
        rw [hsort]
        exact hasc (decide_eq_false hrev)
      · intro hrev
        rw [hsort]
        exact hdesc (decide_eq_true hrev)
      · intro c k hsub hkeys
        rw [hsort]
        exact hstab c k hsub hkeys

/-- Witness for C7: sorting the two-record collection from the spec by
name ascending saves and permutes, and an invalid key is rejected. -/
theorem sort_videos_spec_check :
    (sort_videos [Json.obj [("id", Json.int 1), ("name", Json.str "B")],
      Json.obj [("id", Json.int 2), ("name", Json.str "A")]] "name" "").2 = true ∧
    (sort_videos [Json.obj [("id", Json.int 1), ("name", Json.str "B")],
      Json.obj [("id", Json.int 2), ("name", Json.str "A")]] "name" "").1.Perm
      [Json.obj [("id", Json.int 1), ("name", Json.str "B")],
       Json.obj [("id", Json.int 2), ("name", Json.str "A")]] ∧
    sort_videos [Json.obj [("id", Json.int 1), ("name", Json.str "B")],
      Json.obj [("id", Json.int 2), ("name", Json.str "A")]] "rating" ""
      = ([Json.obj [("id", Json.int 1), ("name", Json.str "B")],
          Json.obj [("id", Json.int 2), ("name", Json.str "A")]], false) := by
  have hcomp : ∀ u ∈ [Json.obj [("id", Json.int 1), ("name", Json.str "B")],
      Json.obj [("id", Json.int 2), ("name", Json.str "A")]],
      ∀ w ∈ [Json.obj [("id", Json.int 1), ("name", Json.str "B")],
        Json.obj [("id", Json.int 2), ("name", Json.str "A")]],
      comparableKeys (keyOf (effKey "name") u) (keyOf (effKey "name") w) := by
    intro u hu w hw
    rcases List.mem_cons.mp hu with rfl | hu'
    · rcases List.mem_cons.mp hw with rfl | hw'
      · exact Or.inr ⟨"B", "B", rfl, rfl⟩
      · rcases List.mem_cons.mp hw' with rfl | hw''
        · exact Or.inr ⟨"B", "A", rfl, rfl⟩
        · cases hw''
    · rcases List.mem_cons.mp hu' with rfl | hu''
      · rcases List.mem_cons.mp hw with rfl | hw'
        · exact Or.inr ⟨"A", "B", rfl, rfl⟩
        · rcases List.mem_cons.mp hw' with rfl | hw''
          · exact Or.inr ⟨"A", "A", rfl, rfl⟩
          · cases hw''
      · cases hu''
  have h := sort_videos_spec [Json.obj [("id", Json.int 1), ("name", Json.str "B")],
    Json.obj [("id", Json.int 2), ("name", Json.str "A")]] "name" "" (by simp)
  have h' := sort_videos_spec [Json.obj [("id", Json.int 1), ("name", Json.str "B")],
    Json.obj [("id", Json.int 2), ("name", Json.str "A")]] "rating" "" (by simp)
  exact ⟨(h.2 (Or.inl rfl) hcomp).1, (h.2 (Or.inl rfl) hcomp).2.1, h'.1 (by decide)⟩
